/-
Verification of the sqler-cli deduplication / similarity engine.

This file gives a shallow embedding of the core of `src/sqler_cli/cli.py`:
the search-oracle adapter `_find_similar`, the duplicate-group builder and
merge policy inside the `dedupe` command, and the tag-handling fragments of
`remember`, `update` and `tags add`.  The external document store's ranked
full-text search is modelled as an explicit function argument
`search : String → Nat → Option (List (Memory × ℚ))`: `search q l` is the
outcome of `Memory.search_ranked(q, limit=l)`, with `none` standing for the
call raising an exception.  BM25 scores are floats compared only with `≤`;
they are modelled as rationals.  Timestamps are naturals (`datetime.min`
becomes `0`, so `created_at = none` sorts first, as in the Python
`m.created_at or datetime.min` key).
-/
import Mathlib

namespace SqlerCli

/-- The `Memory` record (`models.py`), restricted to the fields the dedupe
engine reads or writes: `_id`, `content`, `tags`, `created_at`, `updated_at`.
The remaining fields (`context`, `source`, `session_id`, `supersedes`,
`see_also`, `source_url`, `source_file`, `importance`) are never touched by
the code under verification and are omitted. -/
structure Memory where
  id : Nat
  content : String
  tags : List String
  createdAt : Option Nat
  updatedAt : Option Nat
deriving DecidableEq, Repr

/-- Helper for `pySplit`: scan the characters, accumulating the current token
in reverse; whitespace ends the token (empty tokens are dropped). -/
def pySplitAux : List Char → List Char → List String
  | [], acc => if acc = [] then [] else [⟨acc.reverse⟩]
  | c :: cs, acc =>
    if c.isWhitespace then
      if acc = [] then pySplitAux cs []
      else ⟨acc.reverse⟩ :: pySplitAux cs []
    else pySplitAux cs (c :: acc)

/-- Python's `str.split()` (no argument): split on whitespace runs, dropping
empty tokens, so whitespace-only content yields `[]`. -/
def pySplit (s : String) : List String := pySplitAux s.data []

/-- The query `_find_similar` builds: `" OR ".join(memory.content.split()[:10])`. -/
def simQuery (m : Memory) : String :=
  String.intercalate " OR " ((pySplit m.content).take 10)

/-- The result-scanning loop of `_find_similar` (cli.py lines 154-164):
skip the probe itself, keep results with `score <= threshold`, and stop as
soon as `len(similar) >= limit`.  `acc` is the `similar` accumulator. -/
def simLoop (selfId : Nat) (threshold : ℚ) (limit : Nat) :
    List (Memory × ℚ) → List (Memory × ℚ) → List (Memory × ℚ)
  | [], acc => acc
  | r :: rs, acc =>
    if r.1.id = selfId then
      simLoop selfId threshold limit rs acc
    else if r.2 ≤ threshold then
      if limit ≤ (acc ++ [r]).length then acc ++ [r]
      else simLoop selfId threshold limit rs (acc ++ [r])
    else
      if limit ≤ acc.length then acc
      else simLoop selfId threshold limit rs acc

/-- The function `_find_similar(memory, limit, threshold)` (cli.py lines 138-165).
Tokenize the content, return `[]` on zero tokens, ask ranked search for
`limit + 1` results (`none` = the search raised, swallowed into `[]`), then
run the scanning loop. -/
def findSimilar (search : String → Nat → Option (List (Memory × ℚ)))
    (m : Memory) (limit : Nat) (threshold : ℚ) : List (Memory × ℚ) :=
  if ((pySplit m.content).take 10).isEmpty then []
  else
    match search (simQuery m) (limit + 1) with
    | none => []
    | some results => simLoop m.id threshold limit results []

/-! ## Merge policy (cli.py lines 1354-1371) -/

/-- The sort key of the merge policy: `lambda m: m.created_at or datetime.min`,
with `datetime.min` modelled as `0`. -/
def keyOf (m : Memory) : Nat := m.createdAt.getD 0

/-- The comparison used by `group.sort(key=..., reverse=True)`: `a` may stay
before `b` exactly when `a`'s key is at least `b`'s.  Python's list sort is
stable, as is `List.mergeSort`. -/
def mergeOrder (a b : Memory) : Bool := keyOf b ≤ keyOf a

/-- The tag union of a merge: `set(keeper.tags)` updated with each loser's
tags, materialised as a list.  Python's `list(set(...))` yields the union in
an unspecified duplicate-free order; `List.dedup` of the concatenation is one
such order. -/
def unionTags (keeper : Memory) (rest : List Memory) : List String :=
  (keeper.tags ++ (rest.map Memory.tags).flatten).dedup

/-- The merge policy applied to one group: sort by creation time descending
(stable), keep the head (`keeper`), give it the tag union and a fresh
`updated_at` (the save), and report the rest for deletion.  `none` models the
`group[0]` IndexError on an empty group, which the dedupe command never
produces. -/
def mergeGroup (g : List Memory) (now : Nat) : Option (Memory × List Memory) :=
  match g.mergeSort mergeOrder with
  | [] => none
  | keeper :: rest =>
      some ({ keeper with tags := unionTags keeper rest, updatedAt := some now }, rest)

/-! ## Store operations (save / delete by id) -/

/-- Model of `memory.save()` on an already-persisted record: replace the record with
the same id (append if absent, the upsert case). -/
def storeSave (s : List Memory) (m : Memory) : List Memory :=
  if s.any (fun r => r.id = m.id) then s.map (fun r => if r.id = m.id then m else r)
  else s ++ [m]

/-- Model of `memory.delete()`: permanent removal by id. -/
def storeDelete (s : List Memory) (i : Nat) : List Memory :=
  s.filter (fun r => r.id ≠ i)

/-- Applying a merge to the store: `keeper.save()` then delete each loser.
Returns the new store and the number of deleted members (`len(group) - 1`). -/
def applyMerge (s : List Memory) (g : List Memory) (now : Nat) : List Memory × Nat :=
  match mergeGroup g now with
  | none => (s, 0)
  | some (keeper, rest) =>
      (rest.foldl (fun acc m => storeDelete acc m.id) (storeSave s keeper), rest.length)

/-! ## Duplicate group builder (cli.py lines 1302-1323) -/

/-- The state of the group-building loop: the `seen_ids` set and the
`duplicate_groups` list. -/
structure BuildState where
  seen : Finset Nat
  groups : List (List Memory)
deriving DecidableEq

/-- The inner neighbor loop: `for sim_mem, _score in similar: if sim_mem._id
not in seen_ids: group.append(sim_mem); seen_ids.add(sim_mem._id)`. -/
def addNeighbors : List (Memory × ℚ) → List Memory → Finset Nat → List Memory × Finset Nat
  | [], g, s => (g, s)
  | (m, _) :: rest, g, s =>
      if m.id ∈ s then addNeighbors rest g s
      else addNeighbors rest (g ++ [m]) (insert m.id s)

/-- One iteration of `for memory in all_memories` in the group-building phase:
skip seen ids, query the oracle with `limit=10`, skip when no qualifying
neighbors, otherwise grow a group from the unseen neighbors and emit it (also
marking the seed) when it has more than one member. -/
def buildStep (search : String → Nat → Option (List (Memory × ℚ))) (threshold : ℚ)
    (st : BuildState) (m : Memory) : BuildState :=
  if m.id ∈ st.seen then st
  else
    let similar := findSimilar search m 10 threshold
    if similar.isEmpty then st
    else
      let p := addNeighbors similar [m] st.seen
      if 1 < p.1.length then ⟨insert m.id p.2, st.groups ++ [p.1]⟩
      else ⟨p.2, st.groups⟩

/-- The whole group-building loop over the corpus, from the empty state. -/
def buildGroups (search : String → Nat → Option (List (Memory × ℚ))) (threshold : ℚ)
    (mems : List Memory) : BuildState :=
  mems.foldl (buildStep search threshold) ⟨∅, []⟩

/-! ## Dedupe orchestrator (cli.py lines 1294-1377) -/

/-- The observable outcome of a `dedupe` run: the final store, the discovered
groups, `merged_count`, the ids saved and deleted (in order), and the
modelled terminal messages (only the two early-exit reports are modelled;
per-group rendering is pure display). -/
structure DedupeReport where
  store : List Memory
  groups : List (List Memory)
  mergedCount : Nat
  saves : List Nat
  deletes : List Nat
  output : List String
deriving DecidableEq, Repr

/-- Accumulator of the per-group merge loop. -/
structure MergeAcc where
  store : List Memory
  merged : Nat
  saves : List Nat
  deletes : List Nat
deriving DecidableEq, Repr

/-- One iteration of the merge loop (cli.py lines 1334-1373), for the group
at index `i`: under `--dry-run` skip; otherwise merge when `--auto`, or when
interactive confirmation (modelled as `confirm i`) grants it — under
`--quiet` without `--auto` the prompt is skipped and the default `False`
stands. -/
def mergeStep (dryRun auto quiet : Bool) (confirm : Nat → Bool) (now : Nat)
    (acc : MergeAcc × Nat) (g : List Memory) : MergeAcc × Nat :=
  let i := acc.2
  let a := acc.1
  if dryRun then (a, i + 1)
  else
    let shouldMerge := if auto then true else if quiet then false else confirm i
    if shouldMerge then
      match mergeGroup g now with
      | none => (a, i + 1)
      | some (keeper, rest) =>
          ({ store := rest.foldl (fun s m => storeDelete s m.id) (storeSave a.store keeper),
             merged := a.merged + rest.length,
             saves := a.saves ++ [keeper.id],
             deletes := a.deletes ++ rest.map Memory.id }, i + 1)
    else (a, i + 1)

/-- The `dedupe` command: short-circuit below 2 memories, build groups, report
"no duplicates" when none, otherwise run the merge loop over the groups in
discovery order. -/
def runDedupe (search : String → Nat → Option (List (Memory × ℚ)))
    (store : List Memory) (dryRun auto quiet : Bool) (confirm : Nat → Bool)
    (threshold : ℚ) (now : Nat) : DedupeReport :=
  if store.length < 2 then
    { store := store, groups := [], mergedCount := 0, saves := [], deletes := [],
      output := if quiet then [] else ["Not enough memories to deduplicate."] }
  else
    let st := buildGroups search threshold store
    if st.groups.isEmpty then
      { store := store, groups := [], mergedCount := 0, saves := [], deletes := [],
        output := if quiet then [] else ["No duplicates found."] }
    else
      let r := st.groups.foldl (mergeStep dryRun auto quiet confirm now)
        (⟨store, 0, [], []⟩, 0)
      { store := r.1.store, groups := st.groups, mergedCount := r.1.merged,
        saves := r.1.saves, deletes := r.1.deletes, output := [] }

/-! ## Tag handling of `remember`, `update`, `tags add` -/

/-- Tag-list construction in `remember` (cli.py lines 380-394): start from the
`--tag` options verbatim; with `--auto-tag`, extend with the auto-detected
tags not already present.  `autoTags` stands for `_auto_tag(content)`, whose
regex pattern table is external to the dedupe core. -/
def rememberTags (tagOpts : List String) (autoTags : List String)
    (autoFlag : Bool) : List String :=
  if autoFlag then tagOpts ++ autoTags.filter (fun t => t ∉ tagOpts)
  else tagOpts

/-- Tag update in `update` (cli.py lines 1184-1193): `existing` is the set of
the memory's tags computed once, then each `--tag` value not in `existing` is
appended.  (`--clear-tags` resets to `[]` and is not modelled here.) -/
def updateTags (current : List String) (newTags : List String) : List String :=
  newTags.foldl (fun acc t => if t ∈ current then acc else acc ++ [t]) current

/-- The `tags add` command (cli.py lines 800-811): no-op when the tag is present,
otherwise append it. -/
def tagsAdd (current : List String) (tag : String) : List String :=
  if tag ∈ current then current else current ++ [tag]

/-! ## Lemmas about the oracle scanning loop -/

/-- Qualification predicate of the scanning loop: not the probe, and at least
as relevant as the threshold. -/
def qualifies (selfId : Nat) (t : ℚ) (r : Memory × ℚ) : Bool :=
  decide (r.1.id ≠ selfId ∧ r.2 ≤ t)

theorem simLoop_shape (selfId : Nat) (t : ℚ) (limit : Nat) :
    ∀ (rs acc : List (Memory × ℚ)), ∃ d, simLoop selfId t limit rs acc = acc ++ d ∧
      ∀ p ∈ d, p.1.id ≠ selfId ∧ p.2 ≤ t ∧ p ∈ rs := by
  intro rs
  induction rs with
  | nil => intro acc; exact ⟨[], by simp [simLoop]⟩
  | cons r rs ih =>
    intro acc
    rw [simLoop]
    by_cases h1 : r.1.id = selfId
    · rw [if_pos h1]
      obtain ⟨d, hd, hp⟩ := ih acc
      exact ⟨d, hd, fun p hp' =>
        ⟨(hp p hp').1, (hp p hp').2.1, List.mem_cons_of_mem _ (hp p hp').2.2⟩⟩
    · rw [if_neg h1]
      by_cases h2 : r.2 ≤ t
      · rw [if_pos h2]
        by_cases h3 : limit ≤ (acc ++ [r]).length
        · rw [if_pos h3]
          refine ⟨[r], rfl, ?_⟩
          intro p hp
          rcases List.mem_singleton.mp hp with rfl
          exact ⟨h1, h2, List.mem_cons_self _ _⟩
        · rw [if_neg h3]
          obtain ⟨d, hd, hp⟩ := ih (acc ++ [r])
          refine ⟨r :: d, by simpa using hd, ?_⟩
          intro p hp'
          rcases List.mem_cons.mp hp' with rfl | hp''
          · exact ⟨h1, h2, List.mem_cons_self _ _⟩
          · exact ⟨(hp p hp'').1, (hp p hp'').2.1, List.mem_cons_of_mem _ (hp p hp'').2.2⟩
      · rw [if_neg h2]
        by_cases h3 : limit ≤ acc.length
        · rw [if_pos h3]
          exact ⟨[], by simp⟩
        · rw [if_neg h3]
          obtain ⟨d, hd, hp⟩ := ih acc
          exact ⟨d, hd, fun p hp' =>
            ⟨(hp p hp').1, (hp p hp').2.1, List.mem_cons_of_mem _ (hp p hp').2.2⟩⟩

theorem simLoop_length_le (selfId : Nat) (t : ℚ) (limit : Nat) :
    ∀ (rs acc : List (Memory × ℚ)), acc.length < limit →
      (simLoop selfId t limit rs acc).length ≤ limit := by
  intro rs
  induction rs with
  | nil => intro acc h; rw [simLoop]; omega
  | cons r rs ih =>
    intro acc h
    rw [simLoop]
    by_cases h1 : r.1.id = selfId
    · rw [if_pos h1]; exact ih acc h
    · rw [if_neg h1]
      by_cases h2 : r.2 ≤ t
      · rw [if_pos h2]
        by_cases h3 : limit ≤ (acc ++ [r]).length
        · rw [if_pos h3, List.length_append, List.length_singleton]
          omega
        · rw [if_neg h3]
          refine ih (acc ++ [r]) ?_
          rw [List.length_append, List.length_singleton] at h3 ⊢
          omega
      · rw [if_neg h2]
        by_cases h3 : limit ≤ acc.length
        · rw [if_pos h3]; omega
        · rw [if_neg h3]
          exact ih acc (by omega)

/-- When the loop terminates with fewer than `limit` results it never broke
early, so its output is its accumulator followed by every qualifying stream
element in order. -/
theorem simLoop_no_break (selfId : Nat) (t : ℚ) (limit : Nat) :
    ∀ (rs acc : List (Memory × ℚ)), (simLoop selfId t limit rs acc).length < limit →
      simLoop selfId t limit rs acc = acc ++ rs.filter (qualifies selfId t) := by
  intro rs
  induction rs with
  | nil => intro acc _; simp [simLoop]
  | cons r rs ih =>
    intro acc h
    rw [simLoop] at h ⊢
    by_cases h1 : r.1.id = selfId
    · rw [if_pos h1] at h ⊢
      rw [ih acc h, List.filter_cons]
      have hq : qualifies selfId t r = false := by
        simp [qualifies, h1]
      rw [hq]
      simp
    · rw [if_neg h1] at h ⊢
      by_cases h2 : r.2 ≤ t
      · rw [if_pos h2] at h ⊢
        by_cases h3 : limit ≤ (acc ++ [r]).length
        · rw [if_pos h3] at h
          omega
        · rw [if_neg h3] at h ⊢
          rw [ih (acc ++ [r]) h, List.filter_cons]
          have hq : qualifies selfId t r = true := by
            simp [qualifies, h1, h2]
          rw [hq]
          simp
      · rw [if_neg h2] at h ⊢
        by_cases h3 : limit ≤ acc.length
        · rw [if_pos h3] at h
          omega
        · rw [if_neg h3] at h ⊢
          rw [ih acc h, List.filter_cons]
          have hq : qualifies selfId t r = false := by
            simp [qualifies, h2]
          rw [hq]
          simp

/-- Every returned pair avoids the probe id and meets the threshold. -/
theorem findSimilar_mem (search : String → Nat → Option (List (Memory × ℚ)))
    (m : Memory) (limit : Nat) (t : ℚ) :
    ∀ p ∈ findSimilar search m limit t, p.1.id ≠ m.id ∧ p.2 ≤ t := by
  intro p hp
  simp only [findSimilar] at hp
  split at hp
  · simp at hp
  · split at hp
    · simp at hp
    · rename_i results heq
      obtain ⟨d, hd, hq⟩ := simLoop_shape m.id t limit results []
      rw [hd] at hp
      simp only [List.nil_append] at hp
      exact ⟨(hq p hp).1, (hq p hp).2.1⟩

/-! ## Example fixtures used by witnesses and counterexamples -/

/-- A probe memory used in concrete witnesses. -/
def exProbe : Memory := ⟨1, "hello world", [], some 1, none⟩

/-- A memory with an empty content, used for the zero-token scenario. -/
def exEmpty : Memory := ⟨4, " ", [], some 1, none⟩

/-- A corpus memory, less relevant (score -3). -/
def exB : Memory := ⟨2, "bbb", ["t2"], some 2, none⟩

/-- A corpus memory, more relevant (score -10). -/
def exA : Memory := ⟨3, "aaa", ["t1"], some 1, none⟩

/-- A search oracle returning a single qualifying non-probe result. -/
def exSearch : String → Nat → Option (List (Memory × ℚ)) := fun _ _ => some [(exB, -6)]

/-- A search oracle whose stream holds a weak match before a strong one. -/
def exSearch2 : String → Nat → Option (List (Memory × ℚ)) := fun _ _ =>
  some [(exB, -3), (exA, -10)]

/-! ## C4: oracle postcondition -/

/-- C4, counterexample to the claim as stated: with `limit = 0`, the scanning
loop checks the break condition only after appending, so one qualifying result
slips through and the returned sequence has length `1 > limit`. -/
theorem oracle_postcondition_counterexample :
    ¬ ((findSimilar exSearch exProbe 0 (-5)).length ≤ 0) := by decide

/-- C4 (amended: for `limit ≥ 1`): `similar(M, limit, threshold)` consults
ranked search only at the OR-join of the first 10 whitespace tokens of the
probe content with `limit + 1` requested results, and its output excludes the
probe id, only carries scores at most the threshold, and has length at most
`limit`. -/
theorem oracle_postcondition (search : String → Nat → Option (List (Memory × ℚ)))
    (m : Memory) (limit : Nat) (t : ℚ) (hl : 1 ≤ limit) :
    (∀ p ∈ findSimilar search m limit t, p.1.id ≠ m.id ∧ p.2 ≤ t) ∧
    (findSimilar search m limit t).length ≤ limit ∧
    (∀ search2 : String → Nat → Option (List (Memory × ℚ)),
      search2 (simQuery m) (limit + 1) = search (simQuery m) (limit + 1) →
      findSimilar search2 m limit t = findSimilar search m limit t) := by
  refine ⟨findSimilar_mem search m limit t, ?_, ?_⟩
  · rw [findSimilar]
    split
    · simp
    · split
      · simp
      · exact simLoop_length_le m.id t limit _ [] (by simpa using hl)
  · intro search2 h
    rw [findSimilar, findSimilar, h]

/-- C4 witness: the amended postcondition at a concrete probe and oracle. -/
theorem oracle_postcondition_witness :
    (findSimilar exSearch exProbe 3 (-5)).length ≤ 3 :=
  (oracle_postcondition exSearch exProbe 3 (-5) (by decide)).2.1

/-! ## C5: threshold monotonicity -/

/-- C5, counterexample to the claim as stated: with `limit = 1` and thresholds
`-5 ≤ -3`, the stricter run returns the strong match further down the stream,
while the looser run fills its quota with the earlier weak match and breaks,
so the stricter result is not a subset of the looser one. -/
theorem threshold_monotone_counterexample :
    (-5 : ℚ) ≤ -3 ∧
    (exA, (-10 : ℚ)) ∈ findSimilar exSearch2 exProbe 1 (-5) ∧
    (exA, (-10 : ℚ)) ∉ findSimilar exSearch2 exProbe 1 (-3) := by decide

/-- C5 (amended: whenever the looser run is not truncated by the limit cap,
i.e. returns fewer than `limit` pairs): raising the threshold from `t1` to
`t2` can only add result pairs, never remove them. -/
theorem threshold_monotone (search : String → Nat → Option (List (Memory × ℚ)))
    (m : Memory) (limit : Nat) (t1 t2 : ℚ) (h12 : t1 ≤ t2)
    (hcap : (findSimilar search m limit t2).length < limit) :
    ∀ p ∈ findSimilar search m limit t1, p ∈ findSimilar search m limit t2 := by
  intro p hp
  rw [findSimilar] at hp hcap ⊢
  by_cases hw : ((pySplit m.content).take 10).isEmpty
  · rw [if_pos hw] at hp
    simp at hp
  · rw [if_neg hw] at hp hcap ⊢
    cases heq : search (simQuery m) (limit + 1) with
    | none =>
      rw [heq] at hp
      exact absurd hp (by simp)
    | some results =>
      rw [heq] at hp hcap
      have hcap2 : (simLoop m.id t2 limit results []).length < limit := hcap
      have hp2 : p ∈ simLoop m.id t1 limit results [] := hp
      show p ∈ simLoop m.id t2 limit results []
      rw [simLoop_no_break m.id t2 limit results [] hcap2]
      obtain ⟨d, hd, hq⟩ := simLoop_shape m.id t1 limit results []
      rw [hd] at hp2
      simp only [List.nil_append] at hp2 ⊢
      obtain ⟨hid, hs, hmem⟩ := hq p hp2
      refine List.mem_filter.mpr ⟨hmem, ?_⟩
      simp only [qualifies, decide_eq_true_eq]
      exact ⟨hid, le_trans hs h12⟩

/-- C5 witness: monotonicity at a concrete uncapped instance, applied to the
strong match of the stricter run. -/
theorem threshold_monotone_witness :
    (exA, (-10 : ℚ)) ∈ findSimilar exSearch2 exProbe 5 (-3) :=
  threshold_monotone exSearch2 exProbe 5 (-5) (-3) (by decide) (by decide)
    (exA, -10) (by decide)

/-! ## C6: oracle failure absorption -/

/-- C6: the oracle returns the empty list, propagating nothing, whenever the
probe content has no whitespace tokens or the underlying ranked-search call
raises (modelled as the search function returning `none`). -/
theorem oracle_absorbs_failure (search : String → Nat → Option (List (Memory × ℚ)))
    (m : Memory) (limit : Nat) (t : ℚ)
    (h : pySplit m.content = [] ∨ search (simQuery m) (limit + 1) = none) :
    findSimilar search m limit t = [] := by
  rw [findSimilar]
  rcases h with h | h
  · rw [if_pos (by simp [h])]
  · split
    · rfl
    · rw [h]

/-- C6 witness: a whitespace-only probe against a raising oracle yields `[]`. -/
theorem oracle_absorbs_failure_witness :
    findSimilar (fun _ _ => none) exEmpty 3 (-5) = [] :=
  oracle_absorbs_failure (fun _ _ => none) exEmpty 3 (-5) (Or.inl (by decide))

/-! ## Lemmas about the merge policy -/

/-- Largest creation key of a group (`0` for the empty group). -/
def maxKey (g : List Memory) : Nat := g.foldr (fun m n => max (keyOf m) n) 0

theorem keyOf_le_maxKey {g : List Memory} {m : Memory} (h : m ∈ g) :
    keyOf m ≤ maxKey g := by
  induction g with
  | nil => cases h
  | cons a l ih =>
    rcases List.mem_cons.mp h with rfl | h'
    · exact le_max_left _ _
    · exact le_trans (ih h') (le_max_right _ _)

theorem maxKey_le {g : List Memory} {n : Nat} (h : ∀ m ∈ g, keyOf m ≤ n) :
    maxKey g ≤ n := by
  induction g with
  | nil => exact Nat.zero_le n
  | cons a l ih =>
    exact max_le (h a (List.mem_cons_self a l)) (ih fun m hm => h m (List.mem_cons_of_mem a hm))

theorem mergeOrder_trans : ∀ a b c : Memory, mergeOrder a b → mergeOrder b c → mergeOrder a c := by
  intro a b c hab hbc
  simp only [mergeOrder, decide_eq_true_eq] at hab hbc ⊢
  omega

theorem mergeOrder_total : ∀ a b : Memory, mergeOrder a b || mergeOrder b a := by
  intro a b
  simp only [mergeOrder]
  rcases Nat.le_total (keyOf a) (keyOf b) with h | h <;> simp [h]

/-- Stability of the merge policy: when the descending stable sort of a group
is nonempty, its head is the first group member carrying the maximal creation
key, in the original group order. -/
theorem mergeSort_head_find? :
    ∀ (g : List Memory) (k : Memory) (rest : List Memory),
      g.mergeSort mergeOrder = k :: rest →
      g.find? (fun x => decide (maxKey g ≤ keyOf x)) = some k := by
  intro g
  induction g with
  | nil => intro k rest h; rw [List.mergeSort_nil] at h; cases h
  | cons a l ih =>
    intro k rest h
    obtain ⟨l₁, l₂, h1, h2, h3⟩ := List.mergeSort_cons mergeOrder_trans mergeOrder_total a l
    have hsorted := List.sorted_mergeSort mergeOrder_trans mergeOrder_total (a :: l)
    cases l₁ with
    | nil =>
      rw [List.nil_append] at h1 h2
      rw [h1] at h
      obtain ⟨rfl, rfl⟩ := List.cons_eq_cons.mp h
      have hmax : maxKey (a :: l) ≤ keyOf a := by
        refine maxKey_le ?_
        intro m hm
        rcases List.mem_cons.mp hm with rfl | hm'
        · exact le_refl _
        · have hm2 : m ∈ l₂ := by
            rw [← h2]
            exact List.mem_mergeSort.mpr hm'
          have := List.rel_of_pairwise_cons (h1 ▸ hsorted) hm2
          simpa only [mergeOrder, decide_eq_true_eq] using this
      rw [List.find?_cons_of_pos]
      simpa using hmax
    | cons b l₁t =>
      have hab : keyOf a < keyOf b := by
        have := h3 b (List.mem_cons_self _ _)
        simp only [mergeOrder, Bool.not_eq_true', decide_eq_false_iff_not] at this
        omega
      have hk : k = b := by
        rw [h1, List.cons_append] at h
        exact (List.cons_eq_cons.mp h).1.symm
      have hbl : b ∈ l := by
        have htmp : b ∈ List.mergeSort l mergeOrder := by
          rw [h2]
          exact List.mem_cons_self _ _
        exact List.mem_mergeSort.mp htmp
      have hbmax : keyOf b ≤ maxKey l := keyOf_le_maxKey hbl
      have hamax : keyOf a ≤ maxKey l := by omega
      have hmaxl : maxKey (a :: l) = maxKey l := by
        simp only [maxKey, List.foldr_cons]
        exact Nat.max_eq_right hamax
      have hpa : ¬ (maxKey (a :: l) ≤ keyOf a) := by
        rw [hmaxl]; omega
      rw [List.find?_cons_of_neg]
      · rcases hl : List.mergeSort l mergeOrder with _ | ⟨k2, rest2⟩
        · rw [hl, List.cons_append] at h2
          cases h2
        · have hbk : b = k2 := by
            have h2' := h2
            rw [hl, List.cons_append] at h2'
            exact (List.cons_eq_cons.mp h2'.symm).1
          have hres := ih k2 rest2 hl
          have hpred :
              (fun x => decide (maxKey (a :: l) ≤ keyOf x)) =
                (fun x => decide (maxKey l ≤ keyOf x)) := by
            funext x
            rw [hmaxl]
          rw [hpred, hres, hk, hbk]
      · simpa using hpa

/-- Membership in the merged store after the per-loser deletion fold. -/
theorem mem_foldl_storeDelete :
    ∀ (rest : List Memory) (s0 : List Memory) (r : Memory),
      (r ∈ rest.foldl (fun acc m => storeDelete acc m.id) s0 ↔
        r ∈ s0 ∧ ∀ m ∈ rest, r.id ≠ m.id) := by
  intro rest
  induction rest with
  | nil => intro s0 r; simp
  | cons m rest ih =>
    intro s0 r
    rw [List.foldl_cons, ih]
    simp only [storeDelete, List.mem_filter, decide_eq_true_eq, List.mem_cons]
    constructor
    · rintro ⟨⟨hr, hne⟩, hall⟩
      exact ⟨hr, fun x hx => by rcases hx with rfl | hx; exact hne; exact hall x hx⟩
    · rintro ⟨hr, hall⟩
      exact ⟨⟨hr, hall m (Or.inl rfl)⟩, fun x hx => hall x (Or.inr hx)⟩

/-- The saved record always belongs to the store after the save. -/
theorem self_mem_storeSave (s : List Memory) (m : Memory) : m ∈ storeSave s m := by
  rw [storeSave]
  split
  · rename_i h
    obtain ⟨r, hr, hid⟩ := by simpa using h
    refine List.mem_map.mpr ⟨r, hr, ?_⟩
    rw [if_pos hid]
  · exact List.mem_append_right _ (List.mem_singleton.mpr rfl)

/-- Every record in the saved store is the saved one or an untouched one with
a different id. -/
theorem mem_storeSave_elim {s : List Memory} {m r : Memory} (h : r ∈ storeSave s m) :
    r = m ∨ (r ∈ s ∧ r.id ≠ m.id) := by
  rw [storeSave] at h
  split at h
  · obtain ⟨r0, hr0, hfr⟩ := List.mem_map.mp h
    by_cases hid : r0.id = m.id
    · rw [if_pos hid] at hfr
      exact Or.inl hfr.symm
    · rw [if_neg hid] at hfr
      exact Or.inr ⟨hfr ▸ hr0, hfr ▸ hid⟩
  · rename_i hany
    rcases List.mem_append.mp h with hr | hr
    · refine Or.inr ⟨hr, fun he => hany ?_⟩
      simp only [List.any_eq_true, decide_eq_true_eq]
      exact ⟨r, hr, he⟩
    · exact Or.inl (List.mem_singleton.mp hr)

/-! ## C2: survivor identity -/

/-- C2: the survivor of a dedupe merge is the first group member (in original
group order) carrying the maximal creation timestamp key; the merge keeps its
id, content and creation time, changing only its tags and (via the save) its
`updated_at`. -/
theorem dedupe_survivor_identity (g : List Memory) (now : Nat) (hn : 2 ≤ g.length) :
    ∃ keeper rest m, mergeGroup g now = some (keeper, rest) ∧
      g.find? (fun x => decide (maxKey g ≤ keyOf x)) = some m ∧
      m ∈ g ∧ keyOf m = maxKey g ∧
      keeper.id = m.id ∧ keeper.content = m.content ∧ keeper.createdAt = m.createdAt ∧
      keeper.updatedAt = some now := by
  rcases hs : g.mergeSort mergeOrder with _ | ⟨k, rest⟩
  · have hlen : (g.mergeSort mergeOrder).length = g.length := List.length_mergeSort g
    rw [hs] at hlen
    simp at hlen
    omega
  · have hfind := mergeSort_head_find? g k rest hs
    have hkg : k ∈ g := by
      have htmp : k ∈ g.mergeSort mergeOrder := by
        rw [hs]
        exact List.mem_cons_self _ _
      exact List.mem_mergeSort.mp htmp
    have hmaxle : maxKey g ≤ keyOf k := by
      have := List.find?_some hfind
      simpa using this
    have hkey : keyOf k = maxKey g := le_antisymm (keyOf_le_maxKey hkg) hmaxle
    refine ⟨{ k with tags := unionTags k rest, updatedAt := some now }, rest, k,
      ?_, hfind, hkg, hkey, rfl, rfl, rfl, rfl⟩
    unfold mergeGroup
    rw [hs]

/-- C2 witness: a two-member group whose newest member is listed second. -/
theorem dedupe_survivor_identity_witness :
    ∃ keeper rest m, mergeGroup [exA, exB] 100 = some (keeper, rest) ∧
      [exA, exB].find? (fun x => decide (maxKey [exA, exB] ≤ keyOf x)) = some m ∧
      m ∈ [exA, exB] ∧ keyOf m = maxKey [exA, exB] ∧
      keeper.id = m.id ∧ keeper.content = m.content ∧ keeper.createdAt = m.createdAt ∧
      keeper.updatedAt = some 100 :=
  dedupe_survivor_identity [exA, exB] 100 (by decide)

/-! ## C1: merge conservation -/

/-- C1: merging a group of `n ≥ 2` memories (pairwise distinct ids) deletes
exactly `n - 1` of them and reports that count, exactly one group id remains
present in the store afterwards (the survivor id), and the survivor carries
the duplicate-free set union of all members tag lists. -/
theorem dedupe_merge_conservation (g s : List Memory) (now : Nat)
    (hn : 2 ≤ g.length) (hids : (g.map Memory.id).Nodup) :
    ∃ keeper rest, mergeGroup g now = some (keeper, rest) ∧
      rest.length = g.length - 1 ∧ (applyMerge s g now).2 = g.length - 1 ∧
      keeper.id ∈ g.map Memory.id ∧ keeper.tags.Nodup ∧
      (∀ x, x ∈ keeper.tags ↔ ∃ m ∈ g, x ∈ m.tags) ∧
      (∀ i ∈ g.map Memory.id, ((∃ r ∈ (applyMerge s g now).1, r.id = i) ↔ i = keeper.id)) := by
  rcases hs : g.mergeSort mergeOrder with _ | ⟨k, rest⟩
  · have hlen : (g.mergeSort mergeOrder).length = g.length := List.length_mergeSort g
    rw [hs] at hlen
    simp at hlen
    omega
  · have hperm : List.Perm (k :: rest) g := by
      rw [← hs]
      exact List.mergeSort_perm g mergeOrder
    have hlen : rest.length + 1 = g.length := by simpa using hperm.length_eq
    have hmg : mergeGroup g now =
        some ({ k with tags := unionTags k rest, updatedAt := some now }, rest) := by
      unfold mergeGroup
      rw [hs]
    have happ : applyMerge s g now =
        (rest.foldl (fun acc m => storeDelete acc m.id)
          (storeSave s { k with tags := unionTags k rest, updatedAt := some now }),
          rest.length) := by
      unfold applyMerge
      rw [hmg]
    have hidnd : ((k :: rest).map Memory.id).Nodup :=
      ((hperm.map Memory.id).nodup_iff).mpr hids
    have hknotin : k.id ∉ rest.map Memory.id := by
      have := hidnd
      simp only [List.map_cons, List.nodup_cons] at this
      exact this.1
    refine ⟨{ k with tags := unionTags k rest, updatedAt := some now }, rest, hmg,
      by omega, by rw [happ]; omega, ?_, ?_, ?_, ?_⟩
    · exact List.mem_map.mpr ⟨k, hperm.mem_iff.mp (List.mem_cons_self _ _), rfl⟩
    · exact List.nodup_dedup _
    · intro x
      show x ∈ unionTags k rest ↔ _
      rw [unionTags, List.mem_dedup, List.mem_append]
      constructor
      · rintro (hx | hx)
        · exact ⟨k, hperm.mem_iff.mp (List.mem_cons_self _ _), hx⟩
        · obtain ⟨tl, htl, hx⟩ := List.mem_flatten.mp hx
          obtain ⟨m, hm, rfl⟩ := List.mem_map.mp htl
          exact ⟨m, hperm.mem_iff.mp (List.mem_cons_of_mem _ hm), hx⟩
      · rintro ⟨m, hm, hx⟩
        rcases List.mem_cons.mp (hperm.mem_iff.mpr hm) with rfl | hm'
        · exact Or.inl hx
        · exact Or.inr (List.mem_flatten.mpr ⟨m.tags, List.mem_map.mpr ⟨m, hm', rfl⟩, hx⟩)
    · intro i hi
      rw [happ]
      have hi2 : i ∈ (k :: rest).map Memory.id := (hperm.map Memory.id).mem_iff.mpr hi
      constructor
      · rintro ⟨r, hr, rfl⟩
        obtain ⟨hr1, hr2⟩ := (mem_foldl_storeDelete rest _ r).mp hr
        rcases mem_storeSave_elim hr1 with rfl | ⟨hrs, hrne⟩
        · rfl
        · rcases List.mem_cons.mp hi2 with he | hin
          · exact absurd he hrne
          · obtain ⟨m, hm, hmid⟩ := List.mem_map.mp hin
            exact absurd hmid.symm (hr2 m hm)
      · rintro rfl
        refine ⟨{ k with tags := unionTags k rest, updatedAt := some now }, ?_, rfl⟩
        refine (mem_foldl_storeDelete rest _ _).mpr ⟨self_mem_storeSave _ _, ?_⟩
        intro m hm he
        exact hknotin (he ▸ List.mem_map.mpr ⟨m, hm, rfl⟩)

/-- C1 witness: merging a concrete two-member group inside a three-record
store keeps exactly the newer member and unions the tags. -/
theorem dedupe_merge_conservation_witness :
    ∃ keeper rest, mergeGroup [exA, exB] 100 = some (keeper, rest) ∧
      rest.length = [exA, exB].length - 1 ∧
      (applyMerge [exA, exB, exProbe] [exA, exB] 100).2 = [exA, exB].length - 1 ∧
      keeper.id ∈ [exA, exB].map Memory.id ∧ keeper.tags.Nodup ∧
      (∀ x, x ∈ keeper.tags ↔ ∃ m ∈ [exA, exB], x ∈ m.tags) ∧
      (∀ i ∈ [exA, exB].map Memory.id,
        ((∃ r ∈ (applyMerge [exA, exB, exProbe] [exA, exB] 100).1, r.id = i) ↔
          i = keeper.id)) :=
  dedupe_merge_conservation [exA, exB] [exA, exB, exProbe] 100 (by decide) (by decide)

/-! ## C3: tag uniqueness -/

/-- C3, counterexample to the claim as stated: `remember --tag x --tag x`
builds its tag list as `list(tag or [])`, storing the duplicate verbatim. -/
theorem tag_uniqueness_counterexample :
    ¬ (rememberTags ["x", "x"] [] false).Nodup := by decide

theorem updateTags_aux (cur : List String) :
    ∀ (l acc : List String), acc.Nodup → (∀ t ∈ l, t ∉ cur → t ∉ acc) → l.Nodup →
      (l.foldl (fun acc t => if t ∈ cur then acc else acc ++ [t]) acc).Nodup := by
  intro l
  induction l with
  | nil => intro acc hacc _ _; exact hacc
  | cons t l ih =>
    intro acc hacc hdisj hl
    rw [List.foldl_cons]
    have hl2 := (List.nodup_cons.mp hl).2
    have htl := (List.nodup_cons.mp hl).1
    by_cases hc : t ∈ cur
    · rw [if_pos hc]
      exact ih acc hacc (fun u hu => hdisj u (List.mem_cons_of_mem _ hu)) hl2
    · rw [if_neg hc]
      refine ih (acc ++ [t]) ?_ ?_ hl2
      · refine List.nodup_append.mpr ⟨hacc, List.nodup_singleton _, ?_⟩
        intro x hx hx1
        rcases List.mem_singleton.mp hx1 with rfl
        exact hdisj x (List.mem_cons_self _ _) hc hx
      · intro u hu huc hmem
        rcases List.mem_append.mp hmem with hua | hut
        · exact hdisj u (List.mem_cons_of_mem _ hu) huc hua
        · rcases List.mem_singleton.mp hut with rfl
          exact htl hu

/-- C3 (amended): provided the tag values supplied within a single invocation
are themselves duplicate-free, `tags add`, `update --tag` and `remember`
preserve the no-duplicates invariant, and a dedupe merge always produces
duplicate-free tags; `remember` (and `update`) however store repeated values
within one invocation verbatim, so the invariant holds only under that
proviso. -/
theorem tag_uniqueness (cur ts autoTs newTs : List String) (tag : String)
    (g : List Memory) (now : Nat)
    (hcur : cur.Nodup) (hts : ts.Nodup) (hauto : autoTs.Nodup) (hnew : newTs.Nodup) :
    (tagsAdd cur tag).Nodup ∧ (updateTags cur newTs).Nodup ∧
    (∀ b : Bool, (rememberTags ts autoTs b).Nodup) ∧
    (∀ keeper rest, mergeGroup g now = some (keeper, rest) → keeper.tags.Nodup) := by
  refine ⟨?_, ?_, ?_, ?_⟩
  · rw [tagsAdd]
    split
    · exact hcur
    · rename_i hni
      refine List.nodup_append.mpr ⟨hcur, List.nodup_singleton _, ?_⟩
      intro x hx hx1
      rcases List.mem_singleton.mp hx1 with rfl
      exact hni hx
  · exact updateTags_aux cur newTs cur hcur (fun t _ ht => ht) hnew
  · intro b
    rw [rememberTags]
    cases b with
    | false => simpa using hts
    | true =>
      simp only [if_pos]
      refine List.nodup_append.mpr ⟨hts, hauto.filter _, ?_⟩
      intro x hx hxf
      have := List.of_mem_filter hxf
      simp only [decide_eq_true_eq] at this
      exact this hx
  · intro keeper rest h
    unfold mergeGroup at h
    rcases hs : g.mergeSort mergeOrder with _ | ⟨k, r2⟩
    · rw [hs] at h; cases h
    · rw [hs] at h
      simp only [Option.some.injEq, Prod.mk.injEq] at h
      obtain ⟨hk, -⟩ := h
      rw [← hk]
      exact List.nodup_dedup _

/-- C3 witness: the amended preservation statement at concrete tag lists. -/
theorem tag_uniqueness_witness :
    (tagsAdd ["a"] "e").Nodup ∧ (updateTags ["a"] ["d"]).Nodup :=
  ⟨(tag_uniqueness ["a"] ["b"] ["c"] ["d"] "e" [exA, exB] 100
      (by decide) (by decide) (by decide) (by decide)).1,
    (tag_uniqueness ["a"] ["b"] ["c"] ["d"] "e" [exA, exB] 100
      (by decide) (by decide) (by decide) (by decide)).2.1⟩

/-! ## Lemmas about the group builder -/

theorem addNeighbors_spec :
    ∀ (sim : List (Memory × ℚ)) (g : List Memory) (s : Finset Nat),
      ∃ d : List Memory,
        addNeighbors sim g s = (g ++ d, s ∪ (d.map Memory.id).toFinset) ∧
        (d.map Memory.id).Nodup ∧ (∀ x ∈ d, x.id ∉ s) ∧
        (∀ x ∈ d, ∃ q, (x, q) ∈ sim) := by
  intro sim
  induction sim with
  | nil =>
    intro g s
    exact ⟨[], by simp [addNeighbors], by simp, by simp, by simp⟩
  | cons r rest ih =>
    intro g s
    obtain ⟨m, q⟩ := r
    rw [addNeighbors]
    by_cases hm : m.id ∈ s
    · rw [if_pos hm]
      obtain ⟨d, hd, hnd, hns, hq⟩ := ih g s
      exact ⟨d, hd, hnd, hns, fun x hx =>
        ⟨(hq x hx).choose, List.mem_cons_of_mem _ (hq x hx).choose_spec⟩⟩
    · rw [if_neg hm]
      obtain ⟨d, hd, hnd, hns, hq⟩ := ih (g ++ [m]) (insert m.id s)
      refine ⟨m :: d, ?_, ?_, ?_, ?_⟩
      · rw [hd]
        refine Prod.ext ?_ ?_
        · simp
        · show insert m.id s ∪ (d.map Memory.id).toFinset =
            s ∪ ((m :: d).map Memory.id).toFinset
          rw [List.map_cons, List.toFinset_cons, Finset.union_insert, Finset.insert_union]
      · rw [List.map_cons, List.nodup_cons]
        refine ⟨?_, hnd⟩
        intro hmem
        obtain ⟨x, hx, hxid⟩ := List.mem_map.mp hmem
        exact hns x hx (hxid ▸ Finset.mem_insert_self _ _)
      · intro x hx
        rcases List.mem_cons.mp hx with rfl | hx'
        · exact hm
        · intro hxs
          exact hns x hx' (Finset.mem_insert_of_mem hxs)
      · intro x hx
        rcases List.mem_cons.mp hx with rfl | hx'
        · exact ⟨q, List.mem_cons_self _ _⟩
        · exact ⟨(hq x hx').choose, List.mem_cons_of_mem _ (hq x hx').choose_spec⟩

theorem addNeighbors_mem :
    ∀ (sim : List (Memory × ℚ)) (g : List Memory) (s : Finset Nat) (m : Memory) (q : ℚ),
      (m, q) ∈ sim → (sim.map (fun p => p.1.id)).Nodup → m.id ∉ s →
      m ∈ (addNeighbors sim g s).1 ∧ m.id ∈ (addNeighbors sim g s).2 := by
  intro sim
  induction sim with
  | nil => intro g s m q h; cases h
  | cons r rest ih =>
    intro g s m q hmem hnd hms
    obtain ⟨m2, q2⟩ := r
    rw [List.map_cons, List.nodup_cons] at hnd
    have hnd2 := hnd.2
    rcases List.mem_cons.mp hmem with he | hrest
    · injection he with he1 he2
      subst he1
      rw [addNeighbors, if_neg hms]
      obtain ⟨d, hd, -, -, -⟩ := addNeighbors_spec rest (g ++ [m]) (insert m.id s)
      rw [hd]
      constructor
      · exact List.mem_append_left _ (List.mem_append_right _ (List.mem_singleton.mpr rfl))
      · exact Finset.mem_union_left _ (Finset.mem_insert_self _ _)
    · have hmid : m.id ≠ m2.id := by
        intro he
        exact hnd.1 (he ▸ List.mem_map.mpr ⟨(m, q), hrest, rfl⟩)
      rw [addNeighbors]
      by_cases hm2 : m2.id ∈ s
      · rw [if_pos hm2]
        exact ih g s m q hrest hnd2 hms
      · rw [if_neg hm2]
        refine ih (g ++ [m2]) (insert m2.id s) m q hrest hnd2 ?_
        intro hins
        rcases Finset.mem_insert.mp hins with he | hs2
        · exact hmid he
        · exact hms hs2

/-- The loop invariant of the group builder: groups have at least two members,
no id occurs twice across or within emitted groups, and the visited set is
exactly the set of ids of emitted members. -/
def GroupInv (st : BuildState) : Prop :=
  (∀ g ∈ st.groups, 2 ≤ g.length) ∧
  ((st.groups.map (fun g => g.map Memory.id)).flatten).Nodup ∧
  st.seen = ((st.groups.map (fun g => g.map Memory.id)).flatten).toFinset

theorem buildStep_inv (search : String → Nat → Option (List (Memory × ℚ))) (t : ℚ)
    (st : BuildState) (m : Memory) (h : GroupInv st) :
    GroupInv (buildStep search t st m) := by
  obtain ⟨h1, h2, h3⟩ := h
  rw [buildStep]
  by_cases hm : m.id ∈ st.seen
  · rw [if_pos hm]; exact ⟨h1, h2, h3⟩
  · rw [if_neg hm]
    by_cases hsim : (findSimilar search m 10 t).isEmpty
    · rw [if_pos hsim]; exact ⟨h1, h2, h3⟩
    · rw [if_neg hsim]
      obtain ⟨d, hd, hnd, hns, hq⟩ := addNeighbors_spec (findSimilar search m 10 t) [m] st.seen
      rw [hd]
      have hdm : ∀ x ∈ d, x.id ≠ m.id := by
        intro x hx
        obtain ⟨qx, hqx⟩ := hq x hx
        exact (findSimilar_mem search m 10 t (x, qx) hqx).1
      by_cases hlen : 1 < ([m] ++ d).length
      · rw [if_pos hlen]
        have hne : (m.id :: d.map Memory.id).Nodup := by
          rw [List.nodup_cons]
          refine ⟨?_, hnd⟩
          intro hmem
          obtain ⟨x, hx, hxid⟩ := List.mem_map.mp hmem
          exact hdm x hx hxid
        have hdisj : ∀ i ∈ m.id :: d.map Memory.id,
            i ∉ (st.groups.map (fun g => g.map Memory.id)).flatten := by
          intro i hi hold
          have hiseen : i ∈ st.seen := by
            rw [h3]
            exact List.mem_toFinset.mpr hold
          rcases List.mem_cons.mp hi with rfl | hi'
          · exact hm hiseen
          · obtain ⟨x, hx, hxid⟩ := List.mem_map.mp hi'
            exact hns x hx (hxid ▸ hiseen)
        refine ⟨?_, ?_, ?_⟩
        · intro g hg
          rcases List.mem_append.mp hg with hg' | hg'
          · exact h1 g hg'
          · rcases List.mem_singleton.mp hg' with rfl
            simpa using hlen
        · rw [List.map_append, List.flatten_append]
          refine List.nodup_append.mpr ⟨h2, ?_, ?_⟩
          · simpa using hne
          · intro i hi hi'
            refine hdisj i ?_ hi
            simpa using hi'
        · show insert m.id (st.seen ∪ (d.map Memory.id).toFinset) =
            (((st.groups ++ [[m] ++ d]).map (fun g => g.map Memory.id)).flatten).toFinset
          rw [List.map_append, List.flatten_append, List.toFinset_append, h3]
          have hfl : ((([[m] ++ d]).map (fun g => g.map Memory.id)).flatten) =
              m.id :: d.map Memory.id := by simp
          rw [hfl, List.toFinset_cons, Finset.union_insert]
      · rw [if_neg hlen]
        have hd0 : d = [] := by
          rcases d with _ | ⟨x, xs⟩
          · rfl
          · exfalso; refine hlen ?_; simp
        subst hd0
        refine ⟨h1, h2, ?_⟩
        show st.seen ∪ (([] : List Memory).map Memory.id).toFinset = _
        simpa using h3

/-- C7: the group-builder loop keeps its invariant at every point: theorems
over an arbitrary corpus prefix `mems` cover every intermediate state of the
loop. -/
theorem dedupe_group_invariant (search : String → Nat → Option (List (Memory × ℚ)))
    (t : ℚ) (mems : List Memory) :
    (∀ g ∈ (buildGroups search t mems).groups, 2 ≤ g.length) ∧
    (((buildGroups search t mems).groups.map (fun g => g.map Memory.id)).flatten).Nodup ∧
    (buildGroups search t mems).seen =
      (((buildGroups search t mems).groups.map (fun g => g.map Memory.id)).flatten).toFinset := by
  have hinit : GroupInv ⟨∅, []⟩ := by
    refine ⟨by simp, by simp, by simp⟩
  have hfold : ∀ (l : List Memory) (st : BuildState), GroupInv st →
      GroupInv (l.foldl (buildStep search t) st) := by
    intro l
    induction l with
    | nil => intro st h; exact h
    | cons x xs ih =>
      intro st h
      rw [List.foldl_cons]
      exact ih _ (buildStep_inv search t st x h)
  exact hfold mems ⟨∅, []⟩ hinit

/-! ## C8: unvisited-seed asymmetry -/

/-- A search oracle that finds nothing similar to `exA` but offers `exA` as a
neighbor of every other probe. -/
def exSearch3 : String → Nat → Option (List (Memory × ℚ)) := fun qs _ =>
  if qs = "aaa" then some [] else some [(exA, -10)]

/-- C8: a seed whose oracle query yields no qualifying neighbors is skipped
without being marked visited, so the same memory can still be pulled into a
later seed group within the same run. -/
theorem dedupe_unvisited_seed (search : String → Nat → Option (List (Memory × ℚ)))
    (t : ℚ) (st : BuildState) (m seed : Memory) (q : ℚ)
    (h1 : findSimilar search m 10 t = [])
    (h2 : m.id ∉ st.seen)
    (h3 : seed.id ∉ st.seen)
    (h4 : (m, q) ∈ findSimilar search seed 10 t)
    (h5 : ((findSimilar search seed 10 t).map (fun p => p.1.id)).Nodup) :
    buildStep search t st m = st ∧
    ∃ g, (buildStep search t st seed).groups = st.groups ++ [g] ∧ m ∈ g ∧
      m.id ∈ (buildStep search t st seed).seen := by
  constructor
  · rw [buildStep, if_neg h2, h1]
    simp
  · rw [buildStep, if_neg h3]
    have hne : ¬ ((findSimilar search seed 10 t).isEmpty = true) := by
      intro he
      rw [List.isEmpty_iff] at he
      rw [he] at h4
      cases h4
    rw [if_neg hne]
    obtain ⟨d, hd, hnd, hns, hq⟩ :=
      addNeighbors_spec (findSimilar search seed 10 t) [seed] st.seen
    obtain ⟨hm1, hm2⟩ :=
      addNeighbors_mem (findSimilar search seed 10 t) [seed] st.seen m q h4 h5 h2
    rw [hd] at hm1 hm2 ⊢
    have hmne : m.id ≠ seed.id := (findSimilar_mem search seed 10 t (m, q) h4).1
    have hlen : 1 < ([seed] ++ d).length := by
      rcases List.mem_append.mp hm1 with hm' | hm'
      · rcases List.mem_singleton.mp hm' with rfl
        exact absurd rfl hmne
      · rcases d with _ | ⟨x, xs⟩
        · cases hm'
        · simp
    rw [if_pos hlen]
    exact ⟨[seed] ++ d, rfl, hm1, Finset.mem_insert_of_mem hm2⟩

/-- C8 witness: a skipped seed joining the next seed group. -/
theorem dedupe_unvisited_seed_witness :
    buildStep exSearch3 (-5) (BuildState.mk ∅ []) exA = BuildState.mk ∅ [] ∧
    ∃ g, (buildStep exSearch3 (-5) (BuildState.mk ∅ []) exB).groups =
        (BuildState.mk ∅ []).groups ++ [g] ∧ exA ∈ g ∧
      exA.id ∈ (buildStep exSearch3 (-5) (BuildState.mk ∅ []) exB).seen :=
  dedupe_unvisited_seed exSearch3 (-5) (BuildState.mk ∅ []) exA exB (-10)
    (by decide) (by decide) (by decide) (by decide) (by decide)

/-! ## C9: orchestrator short-circuit -/

/-- C9: with fewer than 2 memories, dedupe changes nothing, reports no group
and no deletion, prints the "not enough" message unless quiet, and consults
no oracle (the result is independent of the search function). -/
theorem dedupe_short_circuit (search : String → Nat → Option (List (Memory × ℚ)))
    (store : List Memory) (dryRun auto quiet : Bool) (confirm : Nat → Bool)
    (t : ℚ) (now : Nat) (h : store.length < 2) :
    runDedupe search store dryRun auto quiet confirm t now =
      { store := store, groups := [], mergedCount := 0, saves := [], deletes := [],
        output := if quiet then [] else ["Not enough memories to deduplicate."] } ∧
    (∀ search2 : String → Nat → Option (List (Memory × ℚ)),
      runDedupe search2 store dryRun auto quiet confirm t now =
        runDedupe search store dryRun auto quiet confirm t now) := by
  constructor
  · rw [runDedupe, if_pos h]
  · intro search2
    rw [runDedupe, if_pos h, runDedupe, if_pos h]

/-- C9 witness: the short-circuit on a one-memory store. -/
theorem dedupe_short_circuit_witness :
    runDedupe exSearch [exA] false false false (fun _ => false) (-3) 100 =
      { store := [exA], groups := [], mergedCount := 0, saves := [], deletes := [],
        output := ["Not enough memories to deduplicate."] } ∧
    (∀ search2 : String → Nat → Option (List (Memory × ℚ)),
      runDedupe search2 [exA] false false false (fun _ => false) (-3) 100 =
        runDedupe exSearch [exA] false false false (fun _ => false) (-3) 100) :=
  dedupe_short_circuit exSearch [exA] false false false (fun _ => false) (-3) 100
    (by decide)

/-! ## C10: dry-run purity -/

theorem foldl_mergeStep_dryRun (auto quiet : Bool) (confirm : Nat → Bool) (now : Nat) :
    ∀ (gs : List (List Memory)) (a : MergeAcc) (i : Nat),
      gs.foldl (mergeStep true auto quiet confirm now) (a, i) = (a, i + gs.length) := by
  intro gs
  induction gs with
  | nil => intro a i; simp
  | cons g gs ih =>
    intro a i
    rw [List.foldl_cons]
    have hstep : mergeStep true auto quiet confirm now (a, i) g = (a, i + 1) := rfl
    rw [hstep, ih]
    refine Prod.ext rfl ?_
    show i + 1 + gs.length = i + (gs.length + 1)
    omega

/-- C10: a dry run discovers exactly the groups a mutating run over the same
store would, while saving nothing, deleting nothing, merging nothing and
leaving the store untouched. -/
theorem dedupe_dry_run_purity (search : String → Nat → Option (List (Memory × ℚ)))
    (store : List Memory) (auto quiet auto2 quiet2 : Bool)
    (confirm confirm2 : Nat → Bool) (t : ℚ) (now : Nat) :
    (runDedupe search store true auto quiet confirm t now).groups =
      (runDedupe search store false auto2 quiet2 confirm2 t now).groups ∧
    (runDedupe search store true auto quiet confirm t now).store = store ∧
    (runDedupe search store true auto quiet confirm t now).saves = [] ∧
    (runDedupe search store true auto quiet confirm t now).deletes = [] ∧
    (runDedupe search store true auto quiet confirm t now).mergedCount = 0 := by
  rw [runDedupe]
  rw [runDedupe]
  by_cases h2 : store.length < 2
  · simp [h2]
  · rw [if_neg h2, if_neg h2]
    by_cases hg : ((buildGroups search t store).groups.isEmpty = true)
    · simp [hg]
    · rw [if_neg hg, if_neg hg]
      rw [foldl_mergeStep_dryRun]
      simp

end SqlerCli

